import Mathlib

/-!
Verification of the pqos command-line parsing core (`src/pqos/main.h`).

The repository ships only the header `main.h`, which declares
`strtouint64`, `strlisttotab`, `strlisttotabrealloc`, `realloc_and_init`
and `selfn_strdup` and defines the `MAX` macro.  The implementations of
the declared functions are not part of the sources, so they are modelled
here from the specification; the `MAX` macro is translated directly from
the header.
-/

namespace Pqos

/-- Error kinds of the toolkit, as named by the specification (§7). -/
inductive Err where
  | InvalidFormat
  | CapacityExceeded
  | AllocationFailure
  deriving DecidableEq, Repr

/-- Value of a decimal digit character, `none` if not a decimal digit. -/
def decDigitVal (c : Char) : Option Nat :=
  if '0' ≤ c ∧ c ≤ '9' then some (c.toNat - 48) else none

/-- Value of a hexadecimal digit character (`0-9`, `a-f`, `A-F`),
`none` otherwise. -/
def hexDigitVal (c : Char) : Option Nat :=
  if '0' ≤ c ∧ c ≤ '9' then some (c.toNat - 48)
  else if 'a' ≤ c ∧ c ≤ 'f' then some (c.toNat - 87)
  else if 'A' ≤ c ∧ c ≤ 'F' then some (c.toNat - 55)
  else none

/-- Accumulating left-to-right digit evaluation; fails on the first
character that is not a digit of the selected base. -/
def parseDigitsAux (base : Nat) (dv : Char → Option Nat) :
    List Char → Nat → Option Nat
  | [], acc => some acc
  | c :: cs, acc =>
    match dv c with
    | none => none
    | some d => parseDigitsAux base dv cs (acc * base + d)

/-- Base-prefix detection: strip a leading `0x`/`0X` (case-insensitive)
and report whether the remainder is to be read in hexadecimal. -/
def hexSplit (cs : List Char) : Bool × List Char :=
  match cs with
  | c0 :: c1 :: rest =>
    if c0 = '0' ∧ (c1 = 'x' ∨ c1 = 'X') then (true, rest) else (false, cs)
  | _ => (false, cs)

/-- Modelled from the spec: the body of `strtouint64` is not in the
sources (only its declaration in `main.h`).  Per §4.1: if the string
begins with `0x` or `0X` the remainder is parsed as hexadecimal,
otherwise it is parsed as decimal; the parse fails with `InvalidFormat`
if the string is empty, contains a character that is not a digit of the
selected base, or the value overflows 64 bits. -/
def strtouint64chars (cs : List Char) : Except Err Nat :=
  let pre := hexSplit cs
  let digits := pre.2
  let base := if pre.1 then 16 else 10
  let dv := if pre.1 then hexDigitVal else decDigitVal
  if digits = [] then .error .InvalidFormat
  else
    match parseDigitsAux base dv digits 0 with
    | none => .error .InvalidFormat
    | some v => if v ≤ 2 ^ 64 - 1 then .ok v else .error .InvalidFormat

/-- Modelled from the spec: `strtouint64` on a `String`, delegating to
the character-list model. -/
def strtouint64 (s : String) : Except Err Nat :=
  strtouint64chars s.data

/-- The numeric value denoted by a list of decimal digit characters
(most significant first). -/
def decDenote (cs : List Char) : Nat :=
  Nat.ofDigits 10 ((cs.map (fun c => c.toNat - 48)).reverse)

/-- The value of one hexadecimal digit character (total function;
meaningful on `0-9`, `a-f`, `A-F`). -/
def hexCharVal (c : Char) : Nat :=
  if c ≤ '9' then c.toNat - 48
  else if 'a' ≤ c then c.toNat - 87
  else c.toNat - 55

/-- The numeric value denoted by a list of hexadecimal digit characters
(most significant first). -/
def hexDenote (cs : List Char) : Nat :=
  Nat.ofDigits 16 ((cs.map hexCharVal).reverse)

/-- Inclusive range expansion (§3 Range): ascending when `a ≤ b`,
descending when `a > b`. -/
def rangeExpand (a b : Nat) : List Nat :=
  if a ≤ b then (List.range (b - a + 1)).map (fun i => a + i)
  else (List.range (a - b + 1)).map (fun i => a - i)

/-- Modelled from the spec: one comma-delimited token (§4.2) is either a
plain number or a range `A-B`, both endpoints parsed by the number
parser; anything else is malformed. -/
def parseToken (t : List Char) : Except Err (List Nat) :=
  match t.splitOn '-' with
  | [a] =>
    match strtouint64chars a with
    | .ok v => .ok [v]
    | .error e => .error e
  | [a, b] =>
    match strtouint64chars a with
    | .error e => .error e
    | .ok va =>
      match strtouint64chars b with
      | .error e => .error e
      | .ok vb => .ok (rangeExpand va vb)
  | _ => .error .InvalidFormat

/-- Expansion of a list of tokens, values appended in token order. -/
def expandTokens : List (List Char) → Except Err (List Nat)
  | [] => .ok []
  | t :: ts =>
    match parseToken t with
    | .error e => .error e
    | .ok l =>
      match expandTokens ts with
      | .error e => .error e
      | .ok rest => .ok (l ++ rest)

/-- Modelled from the spec: full expansion of a comma-separated list
string (§4.2): split on commas, expand each token, concatenate in
left-to-right order with no deduplication and no sorting. -/
def expandList (cs : List Char) : Except Err (List Nat) :=
  expandTokens (cs.splitOn ',')

/-- Modelled from the spec: the body of `strlisttotab` is not in the
sources (only its declaration in `main.h`).  Fixed-capacity expansion
(§4.2): expand the list; if the number of values exceeds the provided
maximum capacity the call fails with `CapacityExceeded`, otherwise the
values (in order) and their count are returned. -/
def strlisttotab (s : String) (max : Nat) : Except Err (List Nat) :=
  match expandList s.data with
  | .error e => .error e
  | .ok vs => if vs.length ≤ max then .ok vs else .error .CapacityExceeded

/-- Modelled from the spec: the body of `realloc_and_init` is not in the
sources (only its declaration in `main.h`).  Per §4.4: given a buffer,
its current element count and a desired new element count, return a
buffer with storage for the new count in which the first `elem_count`
elements keep their contents and the elements from `elem_count` up to
`new_count` are zero-initialized, together with the updated count.  The
per-element size is abstracted by the element type `α` with its zero
value (e.g. `α := List Nat`, `zero := List.replicate elem_size 0` for a
raw element of `elem_size` bytes). -/
def realloc_and_init {α : Type} (zero : α) (ptr : List α)
    (elem_count new_count : Nat) : List α × Nat :=
  (ptr.take elem_count ++ List.replicate (new_count - elem_count) zero, new_count)

/-- Write loop of the growable expander: append each value, growing the
buffer through `realloc_and_init` whenever the next value would exceed
the current capacity (incremental growth, §4.3).  Returns the final
buffer contents and the final capacity. -/
def growWrite : List Nat → Nat → List Nat → List Nat × Nat
  | buf, cap, [] => (buf, cap)
  | buf, cap, v :: vs =>
    if buf.length < cap then growWrite (buf ++ [v]) cap vs
    else
      growWrite ((realloc_and_init 0 buf buf.length (buf.length + 1)).1.set buf.length v)
        (realloc_and_init 0 buf buf.length (buf.length + 1)).2 vs

/-- Modelled from the spec: the body of `strlisttotabrealloc` is not in
the sources (only its declaration in `main.h`).  Per §4.3: same
parsing/expansion semantics as `strlisttotab`, but the buffer grows
instead of failing on capacity exhaustion; returns the values written
and the final capacity (the capacity out-parameter of the caller). -/
def strlisttotabrealloc (s : String) (cap : Nat) : Except Err (List Nat × Nat) :=
  match expandList s.data with
  | .error e => .error e
  | .ok vs => .ok (growWrite [] cap vs)

/-- A heap of string allocations: index = address, `none` = released. -/
structure SlotState where
  heap : List (Option String)
  slot : Option Nat
  deriving Repr, DecidableEq

/-- The string currently held by the slot, if any. -/
def derefSlot (st : SlotState) : Option String :=
  match st.slot with
  | none => none
  | some a => st.heap.getD a none

/-- Modelled from the spec: the body of `selfn_strdup` is not in the
sources (only its declaration in `main.h`).  Per §4.5: duplicate the
source string into a fresh allocation, store it into the slot, and
release whatever allocation the slot previously held. -/
def selfn_strdup (st : SlotState) (arg : String) : SlotState :=
  let h :=
    match st.slot with
    | some a => st.heap.set a none
    | none => st.heap
  { heap := h ++ [some arg], slot := some h.length }

/-- Outcome of a call under the fatal-exit policy of the toolkit: either a
successful value, or process termination with an exit status after an
error report to the standard error stream. -/
inductive FatalResult (α : Type) where
  | ok (a : α)
  | exited (status : Nat) (reportedToStderr : Bool)
  deriving Repr

/-- Modelled from the spec: the fatal-exit policy (§4.1, §6, §7) wraps
every fallible operation; any failure terminates the process with the
non-zero FAILURE status (1) after reporting to standard error, and no
error value is ever returned to the caller. -/
def fatally {α : Type} (r : Except Err α) : FatalResult α :=
  match r with
  | .ok a => .ok a
  | .error _ => .exited 1 true

/-- Modelled from the spec: `realloc_and_init` with the outcome of the
underlying allocation made explicit (§4.4: "fails fatally if the
underlying allocation cannot be satisfied"). -/
def realloc_and_init_checked {α : Type} (allocOk : Bool) (zero : α)
    (ptr : List α) (elem_count new_count : Nat) : Except Err (List α × Nat) :=
  if allocOk then .ok (realloc_and_init zero ptr elem_count new_count)
  else .error .AllocationFailure

/-- Modelled from the spec: `selfn_strdup` with a possibly-null source
and the outcome of the underlying allocation made explicit (§4.5: "if
the source is null or allocation fails, this is a fatal condition"). -/
def selfn_strdup_checked (allocOk : Bool) (st : SlotState)
    (arg : Option String) : Except Err SlotState :=
  match arg with
  | none => .error .InvalidFormat
  | some a =>
    if allocOk then .ok (selfn_strdup st a) else .error .AllocationFailure

/-- The `MAX` macro from `main.h`: evaluate both arguments once and
return `_a > _b ? _a : _b`. -/
def MAX {α : Type} [LinearOrder α] (a b : α) : α :=
  if a > b then a else b

/-- Number of values a well-formed token contributes to the expansion:
1 for a single number, `|A-B| + 1` for a range `A-B`. -/
def tokenWeight (t : List Char) : Nat :=
  match t.splitOn '-' with
  | [_] => 1
  | [a, b] =>
    (max ((strtouint64chars a).toOption.getD 0) ((strtouint64chars b).toOption.getD 0)
      - min ((strtouint64chars a).toOption.getD 0) ((strtouint64chars b).toOption.getD 0)) + 1
  | _ => 0

/-- The values one token contributes to the expansion, empty if the
token is malformed. -/
def tokenVals (t : List Char) : List Nat :=
  (parseToken t).toOption.getD []

/-- `c` is a decimal digit character. -/
def DecDigit (c : Char) : Prop := '0' ≤ c ∧ c ≤ '9'

/-- `c` is a hexadecimal digit character. -/
def HexDigit (c : Char) : Prop :=
  ('0' ≤ c ∧ c ≤ '9') ∨ ('a' ≤ c ∧ c ≤ 'f') ∨ ('A' ≤ c ∧ c ≤ 'F')

instance (c : Char) : Decidable (DecDigit c) := by
  unfold DecDigit; infer_instance

instance (c : Char) : Decidable (HexDigit c) := by
  unfold HexDigit; infer_instance

lemma decDigitVal_of {c : Char} (h : DecDigit c) :
    decDigitVal c = some (c.toNat - 48) := by
  unfold decDigitVal
  rw [if_pos (show '0' ≤ c ∧ c ≤ '9' from h)]

lemma hexDigitVal_of {c : Char} (h : HexDigit c) :
    hexDigitVal c = some (hexCharVal c) := by
  unfold hexDigitVal hexCharVal
  rcases h with h | h | h
  · rw [if_pos h, if_pos h.2]
  · have h9 : ¬ c ≤ '9' := fun hle => absurd (le_trans h.1 hle) (by decide)
    rw [if_neg (fun hc => h9 hc.2), if_pos h, if_neg h9, if_pos h.1]
  · have h9 : ¬ c ≤ '9' := fun hle => absurd (le_trans h.1 hle) (by decide)
    have ha : ¬ 'a' ≤ c := fun hle => absurd (le_trans hle h.2) (by decide)
    rw [if_neg (fun hc => h9 hc.2), if_neg (fun hc => ha hc.1), if_pos h,
      if_neg h9, if_neg ha]

lemma parseDigitsAux_eq (base : Nat) (dv : Char → Option Nat) (f : Char → Nat)
    (cs : List Char) : ∀ acc : Nat, (∀ c ∈ cs, dv c = some (f c)) →
    parseDigitsAux base dv cs acc =
      some (acc * base ^ cs.length + Nat.ofDigits base ((cs.map f).reverse)) := by
  induction cs with
  | nil => intro acc _; simp [parseDigitsAux]
  | cons c cs ih =>
    intro acc h
    have hc : dv c = some (f c) := h c (List.mem_cons_self c cs)
    rw [show parseDigitsAux base dv (c :: cs) acc
        = parseDigitsAux base dv cs (acc * base + f c) by
      simp [parseDigitsAux, hc]]
    rw [ih (acc * base + f c) (fun x hx => h x (List.mem_cons_of_mem c hx))]
    refine congrArg some ?_
    rw [List.map_cons, List.reverse_cons, Nat.ofDigits_append]
    simp only [Nat.ofDigits_singleton, List.length_reverse, List.length_map,
      List.length_cons]
    ring

lemma parseDigitsAux_isSome (base : Nat) (dv : Char → Option Nat)
    (cs : List Char) : ∀ acc v : Nat, parseDigitsAux base dv cs acc = some v →
    ∀ c ∈ cs, (dv c).isSome := by
  induction cs with
  | nil => intro acc v _ c hc; cases hc
  | cons c cs ih =>
    intro acc v h x hx
    rcases hdv : dv c with _ | d
    · rw [show parseDigitsAux base dv (c :: cs) acc = none by
        simp [parseDigitsAux, hdv]] at h
      cases h
    · rcases List.mem_cons.mp hx with rfl | hx2
      · simp [hdv]
      · exact ih (acc * base + d) v (by simpa [parseDigitsAux, hdv] using h) x hx2

lemma hexSplit_all_dec {cs : List Char} (h : ∀ c ∈ cs, DecDigit c) :
    hexSplit cs = (false, cs) := by
  match cs with
  | [] => rfl
  | [c] => rfl
  | c0 :: c1 :: rest =>
    have h1 : DecDigit c1 := h c1 (by simp)
    have hno : ¬ (c0 = '0' ∧ (c1 = 'x' ∨ c1 = 'X')) := by
      rintro ⟨-, h2 | h2⟩ <;> (subst h2; exact absurd h1.2 (by decide))
    simp [hexSplit, hno]

lemma hexSplit_hex (rest : List Char) (c1 : Char) (h : c1 = 'x' ∨ c1 = 'X') :
    hexSplit ('0' :: c1 :: rest) = (true, rest) := by
  simp [hexSplit, h]

lemma strtouint64chars_dec {cs : List Char} (hne : cs ≠ [])
    (hall : ∀ c ∈ cs, DecDigit c) :
    strtouint64chars cs =
      if decDenote cs ≤ 2 ^ 64 - 1 then .ok (decDenote cs)
      else .error .InvalidFormat := by
  have hsplit := hexSplit_all_dec hall
  have hval : parseDigitsAux 10 decDigitVal cs 0 = some (decDenote cs) := by
    rw [parseDigitsAux_eq 10 decDigitVal (fun c => c.toNat - 48) cs 0
      (fun c hc => decDigitVal_of (hall c hc))]
    simp [decDenote]
  simp [strtouint64chars, hsplit, hne, hval]

lemma strtouint64chars_hex {cs rest : List Char}
    (hform : cs = '0' :: 'x' :: rest ∨ cs = '0' :: 'X' :: rest)
    (hne : rest ≠ []) (hall : ∀ c ∈ rest, HexDigit c) :
    strtouint64chars cs =
      if hexDenote rest ≤ 2 ^ 64 - 1 then .ok (hexDenote rest)
      else .error .InvalidFormat := by
  have hsplit : hexSplit cs = (true, rest) := by
    rcases hform with rfl | rfl
    · exact hexSplit_hex rest 'x' (Or.inl rfl)
    · exact hexSplit_hex rest 'X' (Or.inr rfl)
  have hval : parseDigitsAux 16 hexDigitVal rest 0 = some (hexDenote rest) := by
    rw [parseDigitsAux_eq 16 hexDigitVal hexCharVal rest 0
      (fun c hc => hexDigitVal_of (hall c hc))]
    simp [hexDenote]
  simp [strtouint64chars, hsplit, hne, hval]

/-- C1: For every string of decimal digits, `strtouint64` returns
exactly the decimal value it denotes; for every valid `0x`/`0X`-prefixed
string of hexadecimal digits it returns exactly the hexadecimal value of
the remainder; when the denoted value exceeds `2^64 - 1` it fails with
`InvalidFormat`. -/
theorem strtouint64_correct (s : String) :
    (s.data ≠ [] → (∀ c ∈ s.data, DecDigit c) →
      (decDenote s.data ≤ 2 ^ 64 - 1 → strtouint64 s = .ok (decDenote s.data)) ∧
      (2 ^ 64 - 1 < decDenote s.data → strtouint64 s = .error .InvalidFormat)) ∧
    (∀ rest, (s.data = '0' :: 'x' :: rest ∨ s.data = '0' :: 'X' :: rest) →
      rest ≠ [] → (∀ c ∈ rest, HexDigit c) →
      (hexDenote rest ≤ 2 ^ 64 - 1 → strtouint64 s = .ok (hexDenote rest)) ∧
      (2 ^ 64 - 1 < hexDenote rest → strtouint64 s = .error .InvalidFormat)) := by
  constructor
  · intro hne hall
    have h := strtouint64chars_dec hne hall
    refine ⟨fun hle => ?_, fun hgt => ?_⟩
    · rw [strtouint64, h, if_pos hle]
    · rw [strtouint64, h, if_neg (by omega)]
  · intro rest hform hne hall
    have h := strtouint64chars_hex hform hne hall
    refine ⟨fun hle => ?_, fun hgt => ?_⟩
    · rw [strtouint64, h, if_pos hle]
    · rw [strtouint64, h, if_neg (by omega)]

/-- Witness for C1 at the concrete inputs `"42"` and `"0x1f"`. -/
theorem strtouint64_correct_witness :
    strtouint64 "42" = .ok (decDenote "42".data) ∧
    strtouint64 "0x1f" = .ok (hexDenote ['1', 'f']) := by
  constructor
  · exact ((strtouint64_correct "42").1 (by decide) (by decide)).1 (by decide)
  · exact ((strtouint64_correct "0x1f").2 ['1', 'f'] (Or.inl (by decide))
      (by decide) (by decide)).1 (by decide)

lemma decDigitVal_isSome {c : Char} (h : (decDigitVal c).isSome) : DecDigit c := by
  unfold decDigitVal at h
  by_cases hc : '0' ≤ c ∧ c ≤ '9'
  · exact hc
  · rw [if_neg hc] at h
    cases h

lemma hexDigitVal_isSome {c : Char} (h : (hexDigitVal c).isSome) : HexDigit c := by
  unfold hexDigitVal at h
  by_cases h1 : '0' ≤ c ∧ c ≤ '9'
  · exact Or.inl h1
  · by_cases h2 : 'a' ≤ c ∧ c ≤ 'f'
    · exact Or.inr (Or.inl h2)
    · by_cases h3 : 'A' ≤ c ∧ c ≤ 'F'
      · exact Or.inr (Or.inr h3)
      · rw [if_neg h1, if_neg h2, if_neg h3] at h
        cases h

lemma hexSplit_cases (cs : List Char) :
    hexSplit cs = (false, cs) ∨
    ∃ rest, (cs = '0' :: 'x' :: rest ∨ cs = '0' :: 'X' :: rest) ∧
      hexSplit cs = (true, rest) := by
  match cs with
  | [] => exact Or.inl rfl
  | [c] => exact Or.inl rfl
  | c0 :: c1 :: rest =>
    by_cases h : c0 = '0' ∧ (c1 = 'x' ∨ c1 = 'X')
    · refine Or.inr ⟨rest, ?_, by simp [hexSplit, h]⟩
      obtain ⟨h0, hx⟩ := h
      subst h0
      rcases hx with rfl | rfl
      · exact Or.inl rfl
      · exact Or.inr rfl
    · exact Or.inl (by simp [hexSplit, h])

lemma strtouint64chars_ok_dec {cs : List Char} {v : Nat}
    (hsplit : hexSplit cs = (false, cs)) (h : strtouint64chars cs = .ok v) :
    cs ≠ [] ∧ (∀ c ∈ cs, DecDigit c) ∧ v = decDenote cs := by
  simp only [strtouint64chars, hsplit] at h
  by_cases hne : cs = []
  · simp [hne] at h
  · rw [if_neg hne] at h
    simp only [Bool.false_eq_true, if_false] at h
    rcases hp : parseDigitsAux 10 decDigitVal cs 0 with _ | v0 <;> rw [hp] at h
    · cases h
    · have hsome : ∀ c ∈ cs, (decDigitVal c).isSome :=
        parseDigitsAux_isSome 10 decDigitVal cs 0 v0 hp
      have hall : ∀ c ∈ cs, DecDigit c := fun c hc => decDigitVal_isSome (hsome c hc)
      have hval : parseDigitsAux 10 decDigitVal cs 0 = some (decDenote cs) := by
        rw [parseDigitsAux_eq 10 decDigitVal (fun c => c.toNat - 48) cs 0
          (fun c hc => decDigitVal_of (hall c hc))]
        simp [decDenote]
      rw [hval] at hp
      injection hp with hp
      subst hp
      refine ⟨hne, hall, ?_⟩
      dsimp only at h
      by_cases hle : decDenote cs ≤ 2 ^ 64 - 1
      · rw [if_pos hle] at h
        injection h with h
        exact h.symm
      · rw [if_neg hle] at h
        cases h

lemma strtouint64chars_ok_hex {cs rest : List Char} {v : Nat}
    (hsplit : hexSplit cs = (true, rest)) (h : strtouint64chars cs = .ok v) :
    rest ≠ [] ∧ (∀ c ∈ rest, HexDigit c) ∧ v = hexDenote rest := by
  simp only [strtouint64chars, hsplit] at h
  by_cases hne : rest = []
  · simp [hne] at h
  · rw [if_neg hne] at h
    simp only [if_true] at h
    rcases hp : parseDigitsAux 16 hexDigitVal rest 0 with _ | v0 <;> rw [hp] at h
    · cases h
    · have hsome : ∀ c ∈ rest, (hexDigitVal c).isSome :=
        parseDigitsAux_isSome 16 hexDigitVal rest 0 v0 hp
      have hall : ∀ c ∈ rest, HexDigit c := fun c hc => hexDigitVal_isSome (hsome c hc)
      have hval : parseDigitsAux 16 hexDigitVal rest 0 = some (hexDenote rest) := by
        rw [parseDigitsAux_eq 16 hexDigitVal hexCharVal rest 0
          (fun c hc => hexDigitVal_of (hall c hc))]
        simp [hexDenote]
      rw [hval] at hp
      injection hp with hp
      subst hp
      refine ⟨hne, hall, ?_⟩
      dsimp only at h
      by_cases hle : hexDenote rest ≤ 2 ^ 64 - 1
      · rw [if_pos hle] at h
        injection h with h
        exact h.symm
      · rw [if_neg hle] at h
        cases h

/-- C6: Malformed inputs (`"abc"`, `"1-"`, `"0xgg"`, `""`) are all
rejected with `InvalidFormat`, and a parse never partially succeeds: a
successful parse consumed the whole token, every character of which was
a digit of the selected base, and the result is the value of the full
token. -/
theorem strtouint64_atomic :
    strtouint64 "abc" = .error .InvalidFormat ∧
    strtouint64 "1-" = .error .InvalidFormat ∧
    strtouint64 "0xgg" = .error .InvalidFormat ∧
    strtouint64 "" = .error .InvalidFormat ∧
    (∀ (s : String) (v : Nat), strtouint64 s = .ok v →
      (s.data ≠ [] ∧ (∀ c ∈ s.data, DecDigit c) ∧ v = decDenote s.data) ∨
      (∃ rest, (s.data = '0' :: 'x' :: rest ∨ s.data = '0' :: 'X' :: rest) ∧
        rest ≠ [] ∧ (∀ c ∈ rest, HexDigit c) ∧ v = hexDenote rest)) := by
  refine ⟨rfl, rfl, rfl, rfl, ?_⟩
  intro s v h
  rcases hexSplit_cases s.data with hsplit | ⟨rest, hform, hsplit⟩
  · exact Or.inl (strtouint64chars_ok_dec hsplit h)
  · obtain ⟨hne, hall, hv⟩ := strtouint64chars_ok_hex hsplit h
    exact Or.inr ⟨rest, hform, hne, hall, hv⟩

/-- Witness for C6: a successful parse of `"7"` consumed the full
token. -/
theorem strtouint64_atomic_witness :
    ("7".data ≠ [] ∧ (∀ c ∈ "7".data, DecDigit c) ∧ 7 = decDenote "7".data) ∨
    (∃ rest, ("7".data = '0' :: 'x' :: rest ∨ "7".data = '0' :: 'X' :: rest) ∧
      rest ≠ [] ∧ (∀ c ∈ rest, HexDigit c) ∧ 7 = hexDenote rest) :=
  strtouint64_atomic.2.2.2.2 "7" 7 rfl

lemma rangeExpand_asc {a b : Nat} (h : a ≤ b) :
    rangeExpand a b = (List.range (b - a + 1)).map (fun i => a + i) := by
  unfold rangeExpand
  rw [if_pos h]

lemma rangeExpand_desc {a b : Nat} (h : b < a) :
    rangeExpand a b = (List.range (a - b + 1)).map (fun i => a - i) := by
  unfold rangeExpand
  rw [if_neg (by omega)]

lemma rangeExpand_pairwise_asc {a b : Nat} (h : a ≤ b) :
    (rangeExpand a b).Pairwise (· < ·) := by
  rw [rangeExpand_asc h, List.pairwise_iff_getElem]
  intro i j hi hj hij
  simp only [List.getElem_map, List.getElem_range]
  omega

lemma rangeExpand_pairwise_desc {a b : Nat} (h : b < a) :
    (rangeExpand a b).Pairwise (· > ·) := by
  rw [rangeExpand_desc h, List.pairwise_iff_getElem]
  intro i j hi hj hij
  simp only [List.getElem_map, List.getElem_range]
  simp only [List.length_map, List.length_range] at hi hj
  omega

lemma rangeExpand_nodup (a b : Nat) : (rangeExpand a b).Nodup := by
  rcases le_or_lt a b with h | h
  · exact (rangeExpand_pairwise_asc h).imp (fun hlt => ne_of_lt hlt)
  · exact (rangeExpand_pairwise_desc h).imp (fun hgt => ne_of_gt hgt)

lemma rangeExpand_mem_left (a b : Nat) : a ∈ rangeExpand a b := by
  rcases le_or_lt a b with h | h
  · rw [rangeExpand_asc h]
    exact List.mem_map.mpr ⟨0, List.mem_range.mpr (by omega), by omega⟩
  · rw [rangeExpand_desc h]
    exact List.mem_map.mpr ⟨0, List.mem_range.mpr (by omega), by omega⟩

lemma rangeExpand_mem_right (a b : Nat) : b ∈ rangeExpand a b := by
  rcases le_or_lt a b with h | h
  · rw [rangeExpand_asc h]
    exact List.mem_map.mpr ⟨b - a, List.mem_range.mpr (by omega), by omega⟩
  · rw [rangeExpand_desc h]
    exact List.mem_map.mpr ⟨a - b, List.mem_range.mpr (by omega), by omega⟩

/-- C2: A range `A-B` expands to `A, A+1, …, B` (strictly ascending)
when `A ≤ B` and to `A, A-1, …, B` (strictly descending) when `A > B`;
both endpoints appear exactly once.  In particular `"20-18"` expands to
`[20, 19, 18]` and `"1,3,5-7"` to `[1, 3, 5, 6, 7]`. -/
theorem rangeExpand_correct (a b : Nat) :
    (a ≤ b →
      (rangeExpand a b).length = b - a + 1 ∧
      (∀ i, i < b - a + 1 → (rangeExpand a b).getD i 0 = a + i) ∧
      (rangeExpand a b).Pairwise (· < ·)) ∧
    (b < a →
      (rangeExpand a b).length = a - b + 1 ∧
      (∀ i, i < a - b + 1 → (rangeExpand a b).getD i 0 = a - i) ∧
      (rangeExpand a b).Pairwise (· > ·)) ∧
    (rangeExpand a b).count a = 1 ∧
    (rangeExpand a b).count b = 1 ∧
    strlisttotab "20-18" 25 = .ok [20, 19, 18] ∧
    strlisttotab "1,3,5-7" 10 = .ok [1, 3, 5, 6, 7] ∧
    strlisttotabrealloc "20-18" 0 = .ok ([20, 19, 18], 3) := by
  refine ⟨?_, ?_, ?_, ?_, rfl, rfl, rfl⟩
  · intro h
    refine ⟨by rw [rangeExpand_asc h]; simp, ?_, rangeExpand_pairwise_asc h⟩
    intro i hi
    rw [rangeExpand_asc h]
    simp [List.getD_eq_getElem?_getD, List.getElem?_range hi]
  · intro h
    refine ⟨by rw [rangeExpand_desc h]; simp, ?_, rangeExpand_pairwise_desc h⟩
    intro i hi
    rw [rangeExpand_desc h]
    simp [List.getD_eq_getElem?_getD, List.getElem?_range hi]
  · exact List.count_eq_one_of_mem (rangeExpand_nodup a b) (rangeExpand_mem_left a b)
  · exact List.count_eq_one_of_mem (rangeExpand_nodup a b) (rangeExpand_mem_right a b)

/-- Witness for C2 at the concrete ranges `20-18` and `5-7`. -/
theorem rangeExpand_correct_witness :
    (rangeExpand 20 18).length = 20 - 18 + 1 ∧
    (rangeExpand 5 7).getD 1 0 = 5 + 1 :=
  ⟨((rangeExpand_correct 20 18).2.1 (by decide)).1,
   ((rangeExpand_correct 5 7).1 (by decide)).2.1 1 (by decide)⟩

lemma rangeExpand_length (a b : Nat) :
    (rangeExpand a b).length = (max a b - min a b) + 1 := by
  rcases le_or_lt a b with h | h
  · rw [rangeExpand_asc h]; simp; omega
  · rw [rangeExpand_desc h]; simp; omega

lemma parseToken_length {t : List Char} {l : List Nat}
    (h : parseToken t = .ok l) : l.length = tokenWeight t := by
  unfold parseToken at h
  unfold tokenWeight
  rcases hs : t.splitOn '-' with _ | ⟨x, _ | ⟨y, _ | _⟩⟩ <;> rw [hs] at h <;>
    dsimp only at h ⊢
  · cases h
  · rcases ha : strtouint64chars x with e | v <;> rw [ha] at h <;> dsimp only at h
    · cases h
    · injection h with h
      subst h
      rfl
  · rcases ha : strtouint64chars x with e | va <;> rw [ha] at h <;> dsimp only at h
    · cases h
    · rcases hb : strtouint64chars y with e | vb <;> rw [hb] at h <;> dsimp only at h
      · cases h
      · injection h with h
        subst h
        simp [ha, hb, rangeExpand_length, Except.toOption]
  · cases h

lemma expandTokens_spec : ∀ (ts : List (List Char)) (vs : List Nat),
    expandTokens ts = .ok vs →
    vs.length = (ts.map tokenWeight).sum ∧ vs = (ts.map tokenVals).flatten := by
  intro ts
  induction ts with
  | nil =>
    intro vs h
    injection h with h
    subst h
    simp
  | cons t ts ih =>
    intro vs h
    unfold expandTokens at h
    rcases ha : parseToken t with e | l <;> rw [ha] at h <;> dsimp only at h
    · cases h
    · rcases hb : expandTokens ts with e | rest <;> rw [hb] at h <;> dsimp only at h
      · cases h
      · injection h with h
        subst h
        obtain ⟨ih1, ih2⟩ := ih rest hb
        constructor
        · simp [parseToken_length ha, ih1]
        · simp [tokenVals, ha, Except.toOption, ← ih2]

/-- C3: For every well-formed list the returned count equals the sum
over its tokens of 1 for a single number and `|A-B| + 1` for a range,
the values appear in left-to-right token order (within a range in
expansion order), and the output is neither deduplicated nor sorted. -/
theorem strlisttotab_count (s : String) (m : Nat) :
    (∀ vs, strlisttotab s m = .ok vs →
      vs.length = ((s.data.splitOn ',').map tokenWeight).sum ∧
      vs = ((s.data.splitOn ',').map tokenVals).flatten) ∧
    strlisttotab "1,3,3,1-2,2" 10 = .ok [1, 3, 3, 1, 2, 2] := by
  refine ⟨?_, rfl⟩
  intro vs h
  unfold strlisttotab at h
  rcases he : expandList s.data with e | vs0 <;> rw [he] at h
  · cases h
  · dsimp only at h
    split at h
    · injection h with h
      subst h
      exact expandTokens_spec (s.data.splitOn ',') vs0 he
    · cases h

/-- Witness for C3 at the concrete list `"1,3,5-7"`. -/
theorem strlisttotab_count_witness :
    ([1, 3, 5, 6, 7] : List Nat).length =
      (("1,3,5-7".data.splitOn ',').map tokenWeight).sum ∧
    ([1, 3, 5, 6, 7] : List Nat) =
      (("1,3,5-7".data.splitOn ',').map tokenVals).flatten :=
  (strlisttotab_count "1,3,5-7" 10).1 [1, 3, 5, 6, 7] rfl

lemma growWrite_step (buf : List Nat) (v : Nat) :
    (realloc_and_init 0 buf buf.length (buf.length + 1)).1.set buf.length v
      = buf ++ [v] := by
  unfold realloc_and_init
  simp [List.take_length, Nat.add_sub_cancel_left, List.set_append_right,
    Nat.sub_self]

lemma growWrite_fst : ∀ (vs buf : List Nat) (cap : Nat),
    (growWrite buf cap vs).1 = buf ++ vs := by
  intro vs
  induction vs with
  | nil => intro buf cap; simp [growWrite]
  | cons v vs ih =>
    intro buf cap
    unfold growWrite
    by_cases h : buf.length < cap
    · rw [if_pos h, ih]
      simp
    · rw [if_neg h, growWrite_step, ih]
      simp

lemma growWrite_cap : ∀ (vs buf : List Nat) (cap : Nat), buf.length ≤ cap →
    (growWrite buf cap vs).1.length ≤ (growWrite buf cap vs).2 := by
  intro vs
  induction vs with
  | nil => intro buf cap h; simpa [growWrite] using h
  | cons v vs ih =>
    intro buf cap h
    unfold growWrite
    by_cases hlt : buf.length < cap
    · rw [if_pos hlt]
      exact ih _ _ (by simp; omega)
    · rw [if_neg hlt, growWrite_step]
      refine ih _ _ ?_
      simp [realloc_and_init]

/-- C4: For every well-formed list, `strlisttotabrealloc` emits
every value with none dropped or truncated, returns a count equal to the
expansion length of the input, and leaves the capacity out-parameter at the
final buffer size, which is at least the element count. -/
theorem strlisttotabrealloc_correct (s : String) (cap : Nat)
    (out : List Nat × Nat) (h : strlisttotabrealloc s cap = .ok out) :
    expandList s.data = .ok out.1 ∧
    out.1.length = ((s.data.splitOn ',').map tokenWeight).sum ∧
    out.1.length ≤ out.2 := by
  unfold strlisttotabrealloc at h
  rcases he : expandList s.data with e | vs <;> rw [he] at h <;> dsimp only at h
  · cases h
  · injection h with h
    subst h
    have h1 : (growWrite [] cap vs).1 = vs := by
      simpa using growWrite_fst vs [] cap
    refine ⟨?_, ?_, ?_⟩
    · rw [h1]
    · rw [h1]; exact (expandTokens_spec (s.data.splitOn ',') vs he).1
    · exact growWrite_cap vs [] cap (by simp)

/-- Witness for C4 at the concrete list `"1-5"` starting from capacity
zero. -/
theorem strlisttotabrealloc_correct_witness :
    expandList "1-5".data = .ok ([1, 2, 3, 4, 5] : List Nat) ∧
    ([1, 2, 3, 4, 5] : List Nat).length =
      (("1-5".data.splitOn ',').map tokenWeight).sum ∧
    ([1, 2, 3, 4, 5] : List Nat).length ≤ 5 :=
  strlisttotabrealloc_correct "1-5" 0 ([1, 2, 3, 4, 5], 5) rfl

/-- C5: A list whose expanded length exceeds the fixed maximum fails
with `CapacityExceeded`, and a successful call never holds more than
`max` elements (nothing is written beyond the buffer of the caller). -/
theorem strlisttotab_capacity (s : String) (m : Nat) :
    (∀ vs, expandList s.data = .ok vs → m < vs.length →
      strlisttotab s m = .error .CapacityExceeded) ∧
    (∀ vs, strlisttotab s m = .ok vs → vs.length ≤ m) := by
  constructor
  · intro vs he hm
    unfold strlisttotab
    rw [he]
    dsimp only
    rw [if_neg (by omega)]
  · intro vs h
    unfold strlisttotab at h
    rcases he : expandList s.data with e | vs0 <;> rw [he] at h <;> dsimp only at h
    · cases h
    · split at h
      · injection h with h
        subst h
        assumption
      · cases h

/-- Witness for C5: `"1-5"` expands to five values, exceeding a maximum
of three. -/
theorem strlisttotab_capacity_witness :
    strlisttotab "1-5" 3 = .error .CapacityExceeded :=
  (strlisttotab_capacity "1-5" 3).1 [1, 2, 3, 4, 5] rfl (by decide)

lemma getD_replicate {α : Type} (zero : α) (n i : Nat) :
    (List.replicate n zero).getD i zero = zero := by
  simp only [List.getD_eq_getElem?_getD, List.getElem?_replicate]
  split <;> rfl

/-- C7: the function `realloc_and_init` returns a buffer with storage for the new
count in which every element below the prior count keeps its previous
contents, every element from the prior count up to the new count is
zero-initialized, and the count out-parameter equals the new count. -/
theorem realloc_and_init_correct {α : Type} (zero : α) (ptr : List α)
    (elem_count new_count : Nat) (h1 : ptr.length = elem_count)
    (h2 : elem_count ≤ new_count) :
    (realloc_and_init zero ptr elem_count new_count).2 = new_count ∧
    (realloc_and_init zero ptr elem_count new_count).1.length = new_count ∧
    (∀ i, i < elem_count →
      (realloc_and_init zero ptr elem_count new_count).1.getD i zero
        = ptr.getD i zero) ∧
    (∀ i, elem_count ≤ i → i < new_count →
      (realloc_and_init zero ptr elem_count new_count).1.getD i zero = zero) := by
  have htake : ptr.take elem_count = ptr := by
    rw [← h1]
    simp
  refine ⟨rfl, ?_, ?_, ?_⟩
  · show (ptr.take elem_count ++ List.replicate (new_count - elem_count) zero).length
      = new_count
    rw [htake]
    simp
    omega
  · intro i hi
    show (ptr.take elem_count ++ List.replicate (new_count - elem_count) zero).getD i zero
      = ptr.getD i zero
    rw [htake, List.getD_append ptr _ zero i (by omega)]
  · intro i h3 h4
    show (ptr.take elem_count ++ List.replicate (new_count - elem_count) zero).getD i zero
      = zero
    rw [htake, List.getD_append_right ptr _ zero i (by omega), getD_replicate]

/-- Witness for C7: growing `[7, 8]` from two to four elements
zero-initializes position 3. -/
theorem realloc_and_init_correct_witness :
    (realloc_and_init (0 : Nat) [7, 8] 2 4).1.getD 3 0 = 0 :=
  (realloc_and_init_correct 0 [7, 8] 2 4 (by decide) (by decide)).2.2.2 3
    (by decide) (by decide)

/-- C8: the function `selfn_strdup` stores a duplicate of the source into the
slot and releases the allocation the slot previously held; in
particular, setting `"a"` then `"b"` leaves the slot holding exactly
`"b"` with the allocation for `"a"` released. -/
theorem selfn_strdup_correct :
    (∀ (st : SlotState) (arg : String),
      (∀ a, st.slot = some a → a < st.heap.length) →
      derefSlot (selfn_strdup st arg) = some arg ∧
      (∀ a, st.slot = some a →
        (selfn_strdup st arg).heap.getD a none = none)) ∧
    (∀ h0 : List (Option String),
      derefSlot (selfn_strdup (selfn_strdup ⟨h0, none⟩ "a") "b") = some "b" ∧
      (selfn_strdup (selfn_strdup ⟨h0, none⟩ "a") "b").heap.getD h0.length none
        = none) := by
  constructor
  · rintro ⟨heap, slot⟩ arg hvalid
    cases slot with
    | none =>
      refine ⟨?_, ?_⟩
      · show (heap ++ [some arg]).getD heap.length none = some arg
        rw [List.getD_append_right heap _ none heap.length (le_refl _)]
        simp
      · intro a ha
        cases ha
    | some a =>
      have hlt : a < heap.length := hvalid a rfl
      refine ⟨?_, ?_⟩
      · show ((heap.set a none) ++ [some arg]).getD (heap.set a none).length none
          = some arg
        rw [List.getD_append_right _ _ none _ (le_refl _)]
        simp
      · intro a2 ha2
        injection ha2 with ha2
        subst ha2
        show ((heap.set a none) ++ [some arg]).getD a none = none
        rw [List.getD_append _ _ none a (by simpa using hlt)]
        simp [List.getD_eq_getElem?_getD, List.getElem?_set_self (by simpa using hlt)]
  · intro h0
    constructor
    · show ((h0 ++ [some "a"]).set h0.length none ++ [some "b"]).getD
        ((h0 ++ [some "a"]).set h0.length none).length none = some "b"
      rw [List.getD_append_right _ _ none _ (le_refl _)]
      simp
    · show ((h0 ++ [some "a"]).set h0.length none ++ [some "b"]).getD
        h0.length none = none
      rw [List.set_append_right _ _ (le_refl _)]
      simp only [Nat.sub_self, List.set_cons_zero]
      rw [List.getD_append _ _ none h0.length (by simp)]
      rw [List.getD_append_right h0 _ none h0.length (le_refl _)]
      simp

/-- Witness for C8: replacing the string at a concretely-populated slot
stores the new string and releases the old allocation. -/
theorem selfn_strdup_correct_witness :
    derefSlot (selfn_strdup ⟨[some "a"], some 0⟩ "b") = some "b" ∧
    (selfn_strdup ⟨[some "a"], some 0⟩ "b").heap.getD 0 none = none := by
  have h := selfn_strdup_correct.1 ⟨[some "a"], some 0⟩ "b"
    (by intro a ha; cases ha; decide)
  exact ⟨h.1, h.2 0 rfl⟩

/-- C9: Every parse or allocation failure in the five functions
terminates the process with a non-zero status after reporting to the
standard error stream, and no error value is ever returned to the
caller: a non-exited outcome can only come from a successful
computation. -/
theorem fatal_exit_policy :
    (∀ (s : String) (e : Err), strtouint64 s = .error e →
      ∃ st, st ≠ 0 ∧ fatally (strtouint64 s) = .exited st true) ∧
    (∀ (s : String) (m : Nat) (e : Err), strlisttotab s m = .error e →
      ∃ st, st ≠ 0 ∧ fatally (strlisttotab s m) = .exited st true) ∧
    (∀ (s : String) (c : Nat) (e : Err), strlisttotabrealloc s c = .error e →
      ∃ st, st ≠ 0 ∧ fatally (strlisttotabrealloc s c) = .exited st true) ∧
    (∀ (allocOk : Bool) (ptr : List Nat) (ec nc : Nat) (e : Err),
      realloc_and_init_checked allocOk 0 ptr ec nc = .error e →
      ∃ st, st ≠ 0 ∧
        fatally (realloc_and_init_checked allocOk 0 ptr ec nc) = .exited st true) ∧
    (∀ (allocOk : Bool) (sl : SlotState) (arg : Option String) (e : Err),
      selfn_strdup_checked allocOk sl arg = .error e →
      ∃ st, st ≠ 0 ∧
        fatally (selfn_strdup_checked allocOk sl arg) = .exited st true) ∧
    (∀ (α : Type) (r : Except Err α) (a : α), fatally r = .ok a → r = .ok a) := by
  have key : ∀ (α : Type) (r : Except Err α) (e : Err), r = .error e →
      ∃ st, st ≠ 0 ∧ fatally r = .exited st true := by
    intro α r e h
    subst h
    exact ⟨1, one_ne_zero, rfl⟩
  refine ⟨fun s e h => key _ _ e h, fun s m e h => key _ _ e h,
    fun s c e h => key _ _ e h, fun aOk ptr ec nc e h => key _ _ e h,
    fun aOk sl arg e h => key _ _ e h, ?_⟩
  intro α r a h
  cases r with
  | ok b =>
    injection h with h1
    rw [h1]
  | error e => cases h

/-- Witness for C9: the empty string fails to parse, and the outcome is
process exit with a non-zero status. -/
theorem fatal_exit_policy_witness :
    ∃ st, st ≠ 0 ∧ fatally (strtouint64 "") = .exited st true :=
  fatal_exit_policy.1 "" .InvalidFormat rfl

/-- C10: The `MAX` macro returns `a` when `a > b` and `b` otherwise:
it equals the mathematical maximum, and either argument when the two are
equal. -/
theorem MAX_correct {α : Type} [LinearOrder α] (a b : α) :
    MAX a b = max a b ∧ (a > b → MAX a b = a) ∧ (¬ a > b → MAX a b = b) ∧
    (a = b → MAX a b = a ∧ MAX a b = b) := by
  unfold MAX
  by_cases h : a > b
  · rw [if_pos h]
    exact ⟨(max_eq_left h.le).symm, fun _ => rfl, fun hc => absurd h hc,
      fun he => ⟨rfl, he⟩⟩
  · rw [if_neg h]
    have hle : a ≤ b := not_lt.mp h
    exact ⟨(max_eq_right hle).symm, fun hc => absurd hc h, fun _ => rfl,
      fun he => ⟨he.symm, rfl⟩⟩

/-- Witness for C10 at concrete numbers. -/
theorem MAX_correct_witness : MAX (5 : Nat) 3 = 5 ∧ MAX (2 : Nat) 2 = 2 :=
  ⟨(MAX_correct (5 : Nat) 3).2.1 (by decide),
   ((MAX_correct (2 : Nat) 2).2.2.2 rfl).1⟩

end Pqos
